import Mathlib

/-!
A shallow embedding of `src/city/zip.py` (the "Archive Sweeper"), a short
script that globs `*.zip` in the current working directory, extracts each
archive in sorted order with `zipfile.ZipFile(...).extractall(cwd)`, deletes
the archive with `unlink()`, and prints status lines.

Modelling choices:
* The filesystem is an association list from paths to file contents.  A path
  is its list of `/`-separated segments (`FsPath`), relative to the working
  directory; top-level files have single-segment paths.  File names never
  contain `/`, so this keying is faithful.
* File contents (`FileData`) record the only attribute the program inspects:
  whether the bytes form a valid zip archive and, if so, its entries (stored
  member name and entry bytes, the bytes again being a `FileData`).  Only
  regular-file members are modelled (no directory members).
* Fallible filesystem operations are driven by a fault environment `Env`:
  `writeFails p` means writing to path `p` raises `OSError`, `unlinkFails p`
  means `Path.unlink()` on `p` raises `OSError`.
* Python exceptions propagate out of `main`; `sys.exit(main())` then lets
  the interpreter terminate with status 1 (CPython's exit status for an
  uncaught exception).  Normal returns exit with the returned code.
* `ZipFile.extractall` (CPython `zipfile._extract_member`) sanitizes each
  member name on POSIX: split on `/`, drop the parts `''`, `'.'` and `'..'`,
  rejoin.  A member whose sanitized name is empty makes extraction raise
  (`IsADirectoryError` on CPython 3.11, `ValueError` on later versions).
  Writes truncate/overwrite an existing file at the target path.
* String primitives (`*.zip` matching, splitting on `/`, the lexicographic
  comparison used by `sorted`) are implemented structurally over the
  character lists of the strings, so that every run of the model is
  kernel-computable.
* Directories are not first-class in the filesystem model: the parent
  directories `extractall` creates via `os.makedirs` for multi-segment
  member paths, and `glob`'s matching of directories, are not represented.
  The initial working directory is taken to hold regular files only, and
  statements are scoped so that no conclusion depends on a directory the
  run creates: in particular the idempotence theorem requires the first
  segment of every written path not to match `*.zip`
  (`createsNoZipName`), which bars extraction from creating any top-level
  name — regular file or directory — that a later `glob("*.zip")` could
  discover.
-/

namespace ZipSweep

/-- Contents of one file: either bytes that form a valid zip archive holding
the given entries (stored member name paired with the entry's bytes), or
bytes that are not a valid zip archive. -/
inductive FileData where
  | zip (entries : List (String × FileData))
  | notZip
deriving Repr

/-- A filesystem path, as its list of `/`-separated segments relative to the
working directory. -/
abbrev FsPath := List String

/-- The filesystem visible to the program: an association list from paths to
file contents.  Well-formed states have pairwise distinct paths. -/
abbrev FS := List (FsPath × FileData)

/-- Fault model for the filesystem: which writes and which unlinks raise
`OSError`. -/
structure Env where
  writeFails : FsPath → Bool
  unlinkFails : FsPath → Bool

/-- The fault-free environment: every write and unlink succeeds. -/
def envOk : Env := ⟨fun _ => false, fun _ => false⟩

/-- The exceptions that can propagate out of `main`. -/
inductive Err where
  /-- `zipfile.BadZipFile` (or `FileNotFoundError`) from `ZipFile(zip_path, "r")`. -/
  | badZip
  /-- The error raised when a member name sanitizes to the empty path. -/
  | emptyName
  /-- `OSError` from writing an extracted member to disk. -/
  | writeFail
  /-- `OSError` from `zip_path.unlink()`. -/
  | unlinkFail
deriving DecidableEq, Repr

/-- How the process run ended: `main` returned a code, or an exception
propagated uncaught. -/
inductive Outcome where
  | ret (code : Nat)
  | exc (e : Err)
deriving DecidableEq, Repr

/-- Path lookup in the filesystem. -/
def lookupFile : FS → FsPath → Option FileData
  | [], _ => none
  | e :: fs, p => if e.1 = p then some e.2 else lookupFile fs p

/-- Does a file exist at path `p`? -/
def fileExists (fs : FS) (p : FsPath) : Bool :=
  (lookupFile fs p).isSome

/-- Write file contents `d` at path `p`, overwriting an existing file there
(as `open(targetpath, "wb")` does). -/
def setFile : FS → FsPath → FileData → FS
  | [], p, d => [(p, d)]
  | e :: fs, p, d => if e.1 = p then (p, d) :: fs else e :: setFile fs p d

/-- Remove the file at path `p` (as `Path.unlink()` does). -/
def removeFile : FS → FsPath → FS
  | [], _ => []
  | e :: fs, p => if e.1 = p then removeFile fs p else e :: removeFile fs p

/-- The names of the top-level files of the working directory (paths with a
single segment), in directory order: what globbing enumerates. -/
def topLevelNames : FS → List String
  | [] => []
  | e :: fs =>
    match e.1 with
    | [n] => n :: topLevelNames fs
    | _ => topLevelNames fs

/-- Does a file name match the glob pattern `*.zip`?  `fnmatch` translates
the pattern to "ends with `.zip`", matched case-sensitively; `pathlib`'s
glob does not exclude dotfiles. -/
def matchesZipGlob (n : String) : Bool :=
  List.isSuffixOf ".zip".data n.data

/-- Split a character list at every occurrence of `c`, keeping empty pieces
(the semantics of Python's `str.split('/')`). -/
def splitOnChar (c : Char) : List Char → List (List Char)
  | [] => [[]]
  | x :: xs =>
    let r := splitOnChar c xs
    if x = c then [] :: r
    else
      match r with
      | s :: rest => (x :: s) :: rest
      | [] => [[x]]

/-- Lexicographic order on character lists by code point: exactly how Python
compares the file-name strings that `sorted` receives here. -/
def leChars : List Char → List Char → Bool
  | [], _ => true
  | _ :: _, [] => false
  | a :: as, b :: bs => if a < b then true else if a = b then leChars as bs else false

/-- Lexicographic (code-point) order on strings. -/
def strLe (a b : String) : Bool := leChars a.data b.data

/-- Insert a name into a list sorted by `strLe`, before the first element it
is `strLe`-below. -/
def insertLe (a : String) : List String → List String
  | [] => [a]
  | b :: bs => if strLe a b then a :: b :: bs else b :: insertLe a bs

/-- Insertion sort by `strLe`: the effect of Python's `sorted` on the
file names produced by globbing. -/
def sortStrings : List String → List String
  | [] => []
  | a :: as => insertLe a (sortStrings as)

/-- `sorted(cwd.glob("*.zip"))`: the top-level names matching `*.zip`,
sorted ascending by code-point lexicographic order (Python compares these
one-segment paths by their name strings).  The model's working directory
holds regular files only, so the glob ranges over file names here; the real
glob would also match a directory named `*.zip`, which is why theorems about
a run after an extraction assume no written path could have created such a
directory (`createsNoZipName`). -/
def discover (fs : FS) : List String :=
  sortStrings ((topLevelNames fs).filter matchesZipGlob)

/-- CPython `zipfile._extract_member`'s member-name sanitization on POSIX:
split the stored name on `/`, drop the parts `''`, `'.'` and `'..'`.  The
kept parts are the segments of the path the member is written to, relative
to the working directory. -/
def sanitizeParts (name : String) : List String :=
  ((splitOnChar '/' name.data).map String.mk).filter
    (fun part => part != "" && part != "." && part != "..")

/-- Result of `zf.extractall(cwd)`: the (possibly partially updated)
filesystem, the paths written, and the exception if one was raised. -/
structure ExtractResult where
  fs : FS
  writes : List FsPath
  err : Option Err

/-- `zf.extractall(cwd)` over the member list: write each member at its
sanitized path in order, stopping with an exception if a member name
sanitizes to empty or the write fails.  The parent directories that
`extractall` creates with `os.makedirs` before a multi-segment write are not
tracked as filesystem entries; each such directory is named by a proper
prefix of the written path, so its top-level name is the path's first
segment (which `createsNoZipName` constrains where it matters). -/
def extractEntries (env : Env) : FS → List (String × FileData) → ExtractResult
  | fs, [] => ⟨fs, [], none⟩
  | fs, (name, data) :: rest =>
    let p := sanitizeParts name
    if p = [] then ⟨fs, [], some .emptyName⟩
    else if env.writeFails p then ⟨fs, [], some .writeFail⟩
    else
      let r := extractEntries env (setFile fs p data) rest
      ⟨r.fs, p :: r.writes, r.err⟩

/-- "Extracting: {zip_path.name}" -/
def extractingMsg (n : String) : String := "Extracting: " ++ n

/-- "Extracted contents of {zip_path.name}" -/
def extractedMsg (n : String) : String := "Extracted contents of " ++ n

/-- "Deleted: {zip_path.name}" -/
def deletedMsg (n : String) : String := "Deleted: " ++ n

/-- "Finished extracting {len(zip_files)} file(s)." -/
def summaryMsg (k : Nat) : String :=
  "Finished extracting " ++ toString k ++ " file(s)."

/-- "No .zip files found in the current directory." -/
def noZipMsg : String := "No .zip files found in the current directory."

/-- The three status lines a fully processed archive produces. -/
def archiveMsgs (n : String) : List String :=
  [extractingMsg n, extractedMsg n, deletedMsg n]

/-- The status lines produced by fully processing each archive of a list in
order. -/
def msgsOfArchives : List String → List String
  | [] => []
  | n :: rest => archiveMsgs n ++ msgsOfArchives rest

/-- Result of the processing loop: final filesystem, stdout lines, paths
written by extraction, and the exception if one was raised. -/
structure LoopResult where
  fs : FS
  output : List String
  writes : List FsPath
  err : Option Err

/-- The `for zip_path in zip_files:` loop of `main`: for each name in order,
print, open (failing on a missing file or bytes that are not a valid zip),
extract all members, print, unlink (failing if the environment says so),
print.  An exception aborts the loop at once. -/
def processZips (env : Env) : FS → List String → LoopResult
  | fs, [] => ⟨fs, [], [], none⟩
  | fs, name :: rest =>
    match lookupFile fs [name] with
    | none => ⟨fs, [extractingMsg name], [], some .badZip⟩
    | some .notZip => ⟨fs, [extractingMsg name], [], some .badZip⟩
    | some (.zip entries) =>
      match extractEntries env fs entries with
      | ⟨fs', ws, some e⟩ => ⟨fs', [extractingMsg name], ws, some e⟩
      | ⟨fs', ws, none⟩ =>
        if env.unlinkFails [name] then
          ⟨fs', [extractingMsg name, extractedMsg name], ws, some .unlinkFail⟩
        else
          let r := processZips env (removeFile fs' [name]) rest
          ⟨r.fs, archiveMsgs name ++ r.output, ws ++ r.writes, r.err⟩

/-- Result of one process run: final filesystem, stdout lines, paths written
by extraction, and how the run ended. -/
structure RunResult where
  fs : FS
  output : List String
  writes : List FsPath
  outcome : Outcome

/-- `main()` of `src/city/zip.py`: glob and sort the `*.zip` names; if none,
print the message and return 1; otherwise process each in order and, if no
exception occurred, print the summary and return 0. -/
def main (env : Env) (fs : FS) : RunResult :=
  let zips := discover fs
  if zips.isEmpty then
    { fs := fs, output := [noZipMsg], writes := [], outcome := .ret 1 }
  else
    match processZips env fs zips with
    | ⟨fs', out, ws, some e⟩ =>
      { fs := fs', output := out, writes := ws, outcome := .exc e }
    | ⟨fs', out, ws, none⟩ =>
      { fs := fs', output := out ++ [summaryMsg zips.length], writes := ws,
        outcome := .ret 0 }

/-- The process exit status of `sys.exit(main())`: the returned code on a
normal return; CPython terminates with status 1 when an exception propagates
uncaught out of `main`. -/
def processExit (r : RunResult) : Nat :=
  match r.outcome with
  | .ret c => c
  | .exc _ => 1

/-- Is every segment of an extraction target path an ordinary one — nonempty
and neither `.` nor `..`?  Such a path cannot leave the working directory. -/
def ordinarySegments (p : FsPath) : Prop :=
  ∀ s ∈ p, s ≠ "" ∧ s ≠ "." ∧ s ≠ ".."

/-- `true` when writing this path creates nothing at the top level of the
working directory that `glob("*.zip")` could later match.  A single-segment
write `[n]` creates the top-level file `n`; a multi-segment write
`[s, ...]` makes `extractall` first create the top-level directory `s` via
`os.makedirs` — and `glob("*.zip")` matches directories as well as files.
So the check is on the first segment: it must not match `*.zip`. -/
def createsNoZipName : FsPath → Bool
  | [] => true
  | s :: _ => !matchesZipGlob s

/-- Checks that the file at top-level name `n` is a readable zip archive all
of whose members have a nonempty sanitized target path that does not collide
with the single-segment path of any name in `zips`. -/
def validArchiveAt (fs : FS) (zips : List String) (n : String) : Bool :=
  match lookupFile fs [n] with
  | some (.zip es) =>
    es.all (fun e =>
      !(sanitizeParts e.1).isEmpty && zips.all (fun m => sanitizeParts e.1 != [m]))
  | _ => false

end ZipSweep

namespace ZipSweep

/-! ### Lemmas about the filesystem primitives -/

theorem lookupFile_setFile_self (fs : FS) (p : FsPath) (d : FileData) :
    lookupFile (setFile fs p d) p = some d := by
  induction fs with
  | nil => simp [setFile, lookupFile]
  | cons e fs ih =>
    by_cases h : e.1 = p
    · simp [setFile, h, lookupFile]
    · simp [setFile, h, lookupFile, ih]

theorem lookupFile_setFile_ne (fs : FS) (p q : FsPath) (d : FileData) (h : q ≠ p) :
    lookupFile (setFile fs p d) q = lookupFile fs q := by
  have h' : p ≠ q := Ne.symm h
  induction fs with
  | nil => simp [setFile, lookupFile, h']
  | cons e fs ih =>
    by_cases he : e.1 = p
    · have hq : e.1 ≠ q := fun hh => h' (he ▸ hh)
      simp [setFile, he, lookupFile, h', hq]
    · by_cases hq : e.1 = q
      · simp [setFile, he, lookupFile, hq, h]
      · simp [setFile, he, lookupFile, hq, ih]

theorem fileExists_setFile_mono (fs : FS) (p q : FsPath) (d : FileData)
    (h : fileExists fs q = true) : fileExists (setFile fs p d) q = true := by
  by_cases hpq : q = p
  · subst hpq; simp [fileExists, lookupFile_setFile_self]
  · simpa [fileExists, lookupFile_setFile_ne fs p q d hpq] using h

theorem lookupFile_removeFile_self (fs : FS) (p : FsPath) :
    lookupFile (removeFile fs p) p = none := by
  induction fs with
  | nil => simp [removeFile, lookupFile]
  | cons e fs ih =>
    by_cases h : e.1 = p
    · simp [removeFile, h, ih]
    · simp [removeFile, h, lookupFile, ih]

theorem lookupFile_removeFile_ne (fs : FS) (p q : FsPath) (h : q ≠ p) :
    lookupFile (removeFile fs p) q = lookupFile fs q := by
  have h' : p ≠ q := Ne.symm h
  induction fs with
  | nil => simp [removeFile]
  | cons e fs ih =>
    by_cases he : e.1 = p
    · have hq : e.1 ≠ q := fun hh => h' (he ▸ hh)
      simp [removeFile, he, lookupFile, hq, h', ih]
    · by_cases hq : e.1 = q
      · simp [removeFile, he, lookupFile, hq, h]
      · simp [removeFile, he, lookupFile, hq, ih]

theorem fileExists_iff_mem (fs : FS) (p : FsPath) :
    fileExists fs p = true ↔ ∃ d, (p, d) ∈ fs := by
  induction fs with
  | nil => simp [fileExists, lookupFile]
  | cons e fs ih =>
    rcases e with ⟨k, d0⟩
    by_cases h : k = p
    · subst h
      constructor
      · intro _
        exact ⟨d0, List.mem_cons_self _ _⟩
      · intro _
        simp [fileExists, lookupFile]
    · rw [fileExists] at ih ⊢
      simp only [lookupFile, h, if_false, List.mem_cons]
      rw [ih]
      constructor
      · rintro ⟨d, hd⟩
        exact ⟨d, Or.inr hd⟩
      · rintro ⟨d, hd | hd⟩
        · exact absurd (congrArg Prod.fst hd).symm h
        · exact ⟨d, hd⟩

/-! ### Lemmas about discovery -/

theorem mem_topLevelNames (fs : FS) (n : String) :
    n ∈ topLevelNames fs ↔ [n] ∈ fs.map Prod.fst := by
  induction fs with
  | nil => simp [topLevelNames]
  | cons e fs ih =>
    rcases e with ⟨k, d⟩
    rcases k with _ | ⟨m, _ | ⟨s, rest⟩⟩
    · simp only [topLevelNames, List.map_cons, List.mem_cons, ih]
      have : ([n] : FsPath) ≠ [] := by simp
      tauto
    · simp only [topLevelNames, List.map_cons, List.mem_cons, ih]
      have : ([n] : FsPath) = [m] ↔ n = m := by simp
      tauto
    · simp only [topLevelNames, List.map_cons, List.mem_cons, ih]
      have : ([n] : FsPath) ≠ m :: s :: rest := by simp
      tauto

theorem topLevelNames_nodup (fs : FS) (h : (fs.map Prod.fst).Nodup) :
    (topLevelNames fs).Nodup := by
  induction fs with
  | nil => simp [topLevelNames]
  | cons e fs ih =>
    simp only [List.map_cons, List.nodup_cons] at h
    rcases e with ⟨k, d⟩
    rcases k with _ | ⟨m, _ | ⟨s, rest⟩⟩
    · exact ih h.2
    · refine List.nodup_cons.mpr ⟨fun hm => ?_, ih h.2⟩
      exact h.1 ((mem_topLevelNames fs m).mp hm)
    · exact ih h.2

theorem insertLe_perm (a : String) (l : List String) :
    List.Perm (insertLe a l) (a :: l) := by
  induction l with
  | nil => simp [insertLe]
  | cons b bs ih =>
    by_cases h : strLe a b = true
    · simp [insertLe, h]
    · simp only [insertLe, h, if_false]
      exact (ih.cons b).trans (List.Perm.swap a b bs)

theorem sortStrings_perm (l : List String) : List.Perm (sortStrings l) l := by
  induction l with
  | nil => simp [sortStrings]
  | cons a as ih =>
    exact (insertLe_perm a (sortStrings as)).trans (ih.cons a)

theorem mem_sortStrings (l : List String) (x : String) :
    x ∈ sortStrings l ↔ x ∈ l :=
  (sortStrings_perm l).mem_iff

theorem mem_discover (fs : FS) (n : String) :
    n ∈ discover fs ↔ n ∈ topLevelNames fs ∧ matchesZipGlob n = true := by
  rw [discover, mem_sortStrings, List.mem_filter]

theorem discover_nodup (fs : FS) (h : (fs.map Prod.fst).Nodup) :
    (discover fs).Nodup :=
  (sortStrings_perm _).symm.nodup ((topLevelNames_nodup fs h).filter _)

theorem insertLe_ne_nil (a : String) (l : List String) : insertLe a l ≠ [] := by
  cases l with
  | nil => simp [insertLe]
  | cons b bs =>
    by_cases h : strLe a b = true <;> simp [insertLe, h]

theorem discover_eq_nil_iff (fs : FS) :
    discover fs = [] ↔ ∀ n ∈ topLevelNames fs, ¬matchesZipGlob n = true := by
  rw [discover]
  constructor
  · intro h n hn hm
    have : n ∈ sortStrings ((topLevelNames fs).filter matchesZipGlob) :=
      (mem_sortStrings _ n).mpr (List.mem_filter.mpr ⟨hn, hm⟩)
    simp [h] at this
  · intro h
    have hf : (topLevelNames fs).filter matchesZipGlob = [] :=
      List.filter_eq_nil_iff.mpr h
    rw [hf, sortStrings]

theorem fileExists_of_mem_discover (fs : FS) (n : String) (h : n ∈ discover fs) :
    fileExists fs [n] = true := by
  have h1 : [n] ∈ fs.map Prod.fst :=
    (mem_topLevelNames fs n).mp ((mem_discover fs n).mp h).1
  rcases List.mem_map.mp h1 with ⟨e, he, hkey⟩
  exact (fileExists_iff_mem fs [n]).mpr ⟨e.2, by rwa [← hkey, Prod.mk.eta]⟩

/-! ### The sort produces lexicographically ascending output -/

theorem leChars_total (a b : List Char) : leChars a b = true ∨ leChars b a = true := by
  induction a generalizing b with
  | nil => left; rw [leChars]
  | cons x xs ih =>
    cases b with
    | nil => right; rw [leChars]
    | cons y ys =>
      rcases lt_trichotomy x y with h | h | h
      · left; simp [leChars, h]
      · subst h
        rcases ih ys with h' | h'
        · left; simp [leChars, h']
        · right; simp [leChars, h']
      · right; simp [leChars, h]

theorem leChars_trans (a b c : List Char) (hab : leChars a b = true)
    (hbc : leChars b c = true) : leChars a c = true := by
  induction a generalizing b c with
  | nil => rw [leChars]
  | cons x xs ih =>
    cases b with
    | nil => rw [leChars] at hab; cases hab
    | cons y ys =>
      cases c with
      | nil => rw [leChars] at hbc; cases hbc
      | cons z zs =>
        rw [leChars] at hab hbc
        by_cases hxy : x < y
        · have hyz : y < z ∨ y = z := by
            by_cases h1 : y < z
            · exact Or.inl h1
            · simp [h1] at hbc
              by_cases h2 : y = z
              · exact Or.inr h2
              · simp [h2] at hbc
          have hxz : x < z := by
            rcases hyz with h | h
            · exact lt_trans hxy h
            · rwa [← h]
          simp [leChars, hxz]
        · simp [hxy] at hab
          by_cases hxy' : x = y
          · subst hxy'
            simp at hab
            by_cases hxz : x < z
            · simp [leChars, hxz]
            · simp [hxz] at hbc
              by_cases hxz' : x = z
              · subst hxz'
                simp at hbc
                simp [leChars, hxz, ih ys zs hab hbc]
              · simp [hxz'] at hbc
          · simp [hxy'] at hab

theorem strLe_total (a b : String) : strLe a b = true ∨ strLe b a = true :=
  leChars_total a.data b.data

theorem strLe_trans (a b c : String) (hab : strLe a b = true)
    (hbc : strLe b c = true) : strLe a c = true :=
  leChars_trans a.data b.data c.data hab hbc

theorem mem_insertLe (a x : String) (l : List String) :
    x ∈ insertLe a l ↔ x = a ∨ x ∈ l :=
  (insertLe_perm a l).mem_iff.trans (by simp)

theorem pairwise_insertLe (a : String) (l : List String)
    (h : l.Pairwise (fun x y => strLe x y = true)) :
    (insertLe a l).Pairwise (fun x y => strLe x y = true) := by
  induction l with
  | nil => simp [insertLe]
  | cons b bs ih =>
    rcases List.pairwise_cons.mp h with ⟨hb, hbs⟩
    by_cases hab : strLe a b = true
    · simp only [insertLe, hab, if_true]
      refine List.pairwise_cons.mpr ⟨?_, h⟩
      intro x hx
      rcases List.mem_cons.mp hx with rfl | hx
      · exact hab
      · exact strLe_trans a b x hab (hb x hx)
    · simp only [insertLe, hab, if_false]
      refine List.pairwise_cons.mpr ⟨?_, ih hbs⟩
      intro x hx
      rcases (mem_insertLe a x bs).mp hx with rfl | hx
      · rcases strLe_total x b with h' | h'
        · exact absurd h' hab
        · exact h'
      · exact hb x hx

theorem pairwise_sortStrings (l : List String) :
    (sortStrings l).Pairwise (fun x y => strLe x y = true) := by
  induction l with
  | nil => simp [sortStrings]
  | cons a as ih => exact pairwise_insertLe a (sortStrings as) ih

theorem pairwise_discover (fs : FS) :
    (discover fs).Pairwise (fun x y => strLe x y = true) :=
  pairwise_sortStrings _

/-! ### Sanitized member paths have only ordinary segments -/

theorem mem_sanitizeParts (name : String) (s : String) (h : s ∈ sanitizeParts name) :
    s ≠ "" ∧ s ≠ "." ∧ s ≠ ".." := by
  have := (List.mem_filter.mp h).2
  simp only [Bool.and_eq_true, bne_iff_ne, ne_eq] at this
  exact ⟨this.1.1, this.1.2, this.2⟩

end ZipSweep

namespace ZipSweep

/-! ### Lemmas about `extractEntries` -/

theorem fileExists_removeFile_rev (fs : FS) (p q : FsPath)
    (h : fileExists (removeFile fs q) p = true) : fileExists fs p = true := by
  by_cases hpq : p = q
  · subst hpq
    rw [fileExists, lookupFile_removeFile_self] at h
    cases h
  · rwa [fileExists, lookupFile_removeFile_ne fs q p hpq] at h

theorem extractEntries_writes_spec (env : Env) (es : List (String × FileData)) :
    ∀ (fs : FS) (w : FsPath), w ∈ (extractEntries env fs es).writes →
      ∃ e ∈ es, w = sanitizeParts e.1 := by
  induction es with
  | nil =>
    intro fs w hw
    simp [extractEntries] at hw
  | cons hd tl ih =>
    intro fs w hw
    rcases hd with ⟨name, data⟩
    by_cases h1 : sanitizeParts name = []
    · simp [extractEntries, h1] at hw
    · by_cases h2 : env.writeFails (sanitizeParts name) = true
      · simp [extractEntries, h1, h2] at hw
      · simp only [extractEntries, if_neg h1, if_neg h2] at hw
        rcases List.mem_cons.mp hw with rfl | hw
        · exact ⟨(name, data), List.mem_cons_self _ _, rfl⟩
        · rcases ih (setFile fs (sanitizeParts name) data) w hw with ⟨e, he, hwe⟩
          exact ⟨e, List.mem_cons_of_mem _ he, hwe⟩

theorem extractEntries_frame (env : Env) (es : List (String × FileData)) :
    ∀ (fs : FS) (p : FsPath), p ∉ (extractEntries env fs es).writes →
      lookupFile (extractEntries env fs es).fs p = lookupFile fs p := by
  induction es with
  | nil =>
    intro fs p _
    simp [extractEntries]
  | cons hd tl ih =>
    intro fs p hp
    rcases hd with ⟨name, data⟩
    by_cases h1 : sanitizeParts name = []
    · simp [extractEntries, h1]
    · by_cases h2 : env.writeFails (sanitizeParts name) = true
      · simp [extractEntries, h1, h2]
      · simp only [extractEntries, if_neg h1, if_neg h2] at hp ⊢
        have hp' : p ∉ (extractEntries env (setFile fs (sanitizeParts name) data) tl).writes :=
          fun hmem => hp (List.mem_cons_of_mem _ hmem)
        have hne : p ≠ sanitizeParts name := fun hh => hp (hh ▸ List.mem_cons_self _ _)
        rw [ih (setFile fs (sanitizeParts name) data) p hp',
          lookupFile_setFile_ne fs (sanitizeParts name) p data hne]

theorem extractEntries_exists_mono (env : Env) (es : List (String × FileData)) :
    ∀ (fs : FS) (p : FsPath), fileExists fs p = true →
      fileExists (extractEntries env fs es).fs p = true := by
  induction es with
  | nil =>
    intro fs p hp
    simpa [extractEntries] using hp
  | cons hd tl ih =>
    intro fs p hp
    rcases hd with ⟨name, data⟩
    by_cases h1 : sanitizeParts name = []
    · simpa [extractEntries, h1] using hp
    · by_cases h2 : env.writeFails (sanitizeParts name) = true
      · simpa [extractEntries, h1, h2] using hp
      · simp only [extractEntries, if_neg h1, if_neg h2]
        exact ih _ p (fileExists_setFile_mono fs (sanitizeParts name) p data hp)

theorem extractEntries_exists_rev (env : Env) (es : List (String × FileData)) :
    ∀ (fs : FS) (p : FsPath), fileExists (extractEntries env fs es).fs p = true →
      fileExists fs p = true ∨ p ∈ (extractEntries env fs es).writes := by
  induction es with
  | nil =>
    intro fs p hp
    left
    simpa [extractEntries] using hp
  | cons hd tl ih =>
    intro fs p hp
    rcases hd with ⟨name, data⟩
    by_cases h1 : sanitizeParts name = []
    · left; simpa [extractEntries, h1] using hp
    · by_cases h2 : env.writeFails (sanitizeParts name) = true
      · left; simpa [extractEntries, h1, h2] using hp
      · simp only [extractEntries, if_neg h1, if_neg h2] at hp ⊢
        rcases ih (setFile fs (sanitizeParts name) data) p hp with hex | hmem
        · by_cases hpn : p = sanitizeParts name
          · right; exact hpn ▸ List.mem_cons_self _ _
          · left
            rwa [fileExists, lookupFile_setFile_ne fs (sanitizeParts name) p data hpn] at hex
        · right; exact List.mem_cons_of_mem _ hmem

theorem extractEntries_ok (env : Env) (es : List (String × FileData)) :
    ∀ (fs : FS), (∀ e ∈ es, sanitizeParts e.1 ≠ []) →
      (∀ p, env.writeFails p = false) →
      (extractEntries env fs es).err = none ∧
      (extractEntries env fs es).writes = es.map (fun e => sanitizeParts e.1) ∧
      (∀ e ∈ es, fileExists (extractEntries env fs es).fs (sanitizeParts e.1) = true) := by
  induction es with
  | nil =>
    intro fs _ _
    simp [extractEntries]
  | cons hd tl ih =>
    intro fs hne hw
    rcases hd with ⟨name, data⟩
    have h1 : sanitizeParts name ≠ [] := hne (name, data) (List.mem_cons_self _ _)
    have h2 : ¬env.writeFails (sanitizeParts name) = true := by
      simp [hw (sanitizeParts name)]
    simp only [extractEntries, if_neg h1, if_neg h2]
    have htl := ih (setFile fs (sanitizeParts name) data)
      (fun e he => hne e (List.mem_cons_of_mem _ he)) hw
    refine ⟨htl.1, by simp [htl.2.1], ?_⟩
    intro e he
    rcases List.mem_cons.mp he with rfl | he
    · exact extractEntries_exists_mono env tl _ _
        (by simp [fileExists, lookupFile_setFile_self])
    · exact htl.2.2 e he

/-! ### Lemmas about `validArchiveAt` -/

theorem validArchiveAt_spec (fs : FS) (zips : List String) (n : String)
    (h : validArchiveAt fs zips n = true) :
    ∃ es, lookupFile fs [n] = some (.zip es) ∧
      ∀ e ∈ es, sanitizeParts e.1 ≠ [] ∧ ∀ m ∈ zips, sanitizeParts e.1 ≠ [m] := by
  rcases hl : lookupFile fs [n] with _ | d
  · rw [validArchiveAt, hl] at h; cases h
  · cases d with
    | notZip => rw [validArchiveAt, hl] at h; cases h
    | zip es =>
      refine ⟨es, rfl, ?_⟩
      rw [validArchiveAt, hl, List.all_eq_true] at h
      intro e he
      have := h e he
      simp only [Bool.and_eq_true, List.all_eq_true, bne_iff_ne, ne_eq] at this
      refine ⟨?_, fun m hm => this.2 m hm⟩
      intro hnil
      rw [hnil] at this
      simp at this

theorem validArchiveAt_congr (fs fs' : FS) (zips : List String) (n : String)
    (h : lookupFile fs' [n] = lookupFile fs [n]) :
    validArchiveAt fs' zips n = validArchiveAt fs zips n := by
  rw [validArchiveAt, validArchiveAt, h]

theorem fileExists_of_validArchiveAt (fs : FS) (zips : List String) (n : String)
    (h : validArchiveAt fs zips n = true) : fileExists fs [n] = true := by
  rcases validArchiveAt_spec fs zips n h with ⟨es, hl, _⟩
  simp [fileExists, hl]

end ZipSweep

namespace ZipSweep

/-! ### Branch equations for `processZips` -/

theorem processZips_nil (env : Env) (fs : FS) :
    processZips env fs [] = ⟨fs, [], [], none⟩ := rfl

theorem processZips_cons_missing (env : Env) (fs : FS) (name : String)
    (rest : List String) (hl : lookupFile fs [name] = none) :
    processZips env fs (name :: rest) =
      ⟨fs, [extractingMsg name], [], some .badZip⟩ := by
  simp [processZips, hl]

theorem processZips_cons_notZip (env : Env) (fs : FS) (name : String)
    (rest : List String) (hl : lookupFile fs [name] = some .notZip) :
    processZips env fs (name :: rest) =
      ⟨fs, [extractingMsg name], [], some .badZip⟩ := by
  simp [processZips, hl]

theorem processZips_cons_extractErr (env : Env) (fs fs0 : FS) (name : String)
    (rest : List String) (es : List (String × FileData)) (ws : List FsPath) (e0 : Err)
    (hl : lookupFile fs [name] = some (.zip es))
    (he : extractEntries env fs es = ⟨fs0, ws, some e0⟩) :
    processZips env fs (name :: rest) =
      ⟨fs0, [extractingMsg name], ws, some e0⟩ := by
  simp [processZips, hl, he]

theorem processZips_cons_unlinkErr (env : Env) (fs fs0 : FS) (name : String)
    (rest : List String) (es : List (String × FileData)) (ws : List FsPath)
    (hl : lookupFile fs [name] = some (.zip es))
    (he : extractEntries env fs es = ⟨fs0, ws, none⟩)
    (hu : env.unlinkFails [name] = true) :
    processZips env fs (name :: rest) =
      ⟨fs0, [extractingMsg name, extractedMsg name], ws, some .unlinkFail⟩ := by
  simp [processZips, hl, he, hu]

theorem processZips_cons_step (env : Env) (fs fs0 : FS) (name : String)
    (rest : List String) (es : List (String × FileData)) (ws : List FsPath)
    (hl : lookupFile fs [name] = some (.zip es))
    (he : extractEntries env fs es = ⟨fs0, ws, none⟩)
    (hu : env.unlinkFails [name] = false) :
    processZips env fs (name :: rest) =
      ⟨(processZips env (removeFile fs0 [name]) rest).fs,
       archiveMsgs name ++ (processZips env (removeFile fs0 [name]) rest).output,
       ws ++ (processZips env (removeFile fs0 [name]) rest).writes,
       (processZips env (removeFile fs0 [name]) rest).err⟩ := by
  simp [processZips, hl, he, hu]

end ZipSweep

namespace ZipSweep

/-- Four-way case analysis of one step of the processing loop. -/
theorem processZips_cons_cases (env : Env) (fs : FS) (name : String)
    (rest : List String) :
    (processZips env fs (name :: rest) =
        ⟨fs, [extractingMsg name], [], some .badZip⟩ ∧
       ∀ es, lookupFile fs [name] ≠ some (.zip es)) ∨
    (∃ es fs0 ws e0, lookupFile fs [name] = some (.zip es) ∧
       extractEntries env fs es = ⟨fs0, ws, some e0⟩ ∧
       processZips env fs (name :: rest) = ⟨fs0, [extractingMsg name], ws, some e0⟩) ∨
    (∃ es fs0 ws, lookupFile fs [name] = some (.zip es) ∧
       extractEntries env fs es = ⟨fs0, ws, none⟩ ∧ env.unlinkFails [name] = true ∧
       processZips env fs (name :: rest) =
         ⟨fs0, [extractingMsg name, extractedMsg name], ws, some .unlinkFail⟩) ∨
    (∃ es fs0 ws, lookupFile fs [name] = some (.zip es) ∧
       extractEntries env fs es = ⟨fs0, ws, none⟩ ∧ env.unlinkFails [name] = false ∧
       processZips env fs (name :: rest) =
         ⟨(processZips env (removeFile fs0 [name]) rest).fs,
          archiveMsgs name ++ (processZips env (removeFile fs0 [name]) rest).output,
          ws ++ (processZips env (removeFile fs0 [name]) rest).writes,
          (processZips env (removeFile fs0 [name]) rest).err⟩) := by
  rcases hl : lookupFile fs [name] with _ | d
  · exact Or.inl ⟨processZips_cons_missing env fs name rest hl, by simp⟩
  · cases d with
    | notZip =>
      refine Or.inl ⟨processZips_cons_notZip env fs name rest hl, ?_⟩
      intro es h
      exact FileData.noConfusion (Option.some.inj h)
    | zip es =>
      rcases he : extractEntries env fs es with ⟨fs0, ws, err0⟩
      cases err0 with
      | some e0 =>
        exact Or.inr (Or.inl ⟨es, fs0, ws, e0, rfl,
          he, processZips_cons_extractErr env fs fs0 name rest es ws e0 hl he⟩)
      | none =>
        cases hu : env.unlinkFails [name] with
        | true =>
          exact Or.inr (Or.inr (Or.inl ⟨es, fs0, ws, rfl, he, rfl,
            processZips_cons_unlinkErr env fs fs0 name rest es ws hl he hu⟩))
        | false =>
          exact Or.inr (Or.inr (Or.inr ⟨es, fs0, ws, rfl, he, rfl,
            processZips_cons_step env fs fs0 name rest es ws hl he hu⟩))

/-! ### Lemmas about `processZips` -/

theorem processZips_ok_output (env : Env) (l : List String) :
    ∀ fs : FS, (processZips env fs l).err = none →
      (processZips env fs l).output = msgsOfArchives l := by
  induction l with
  | nil =>
    intro fs _
    rw [processZips_nil]
    rfl
  | cons name rest ih =>
    intro fs herr
    rcases processZips_cons_cases env fs name rest with
      ⟨heq, -⟩ | ⟨es, fs0, ws, e0, hl, he, heq⟩ | ⟨es, fs0, ws, hl, he, hu, heq⟩ |
      ⟨es, fs0, ws, hl, he, hu, heq⟩
    · rw [heq] at herr; cases herr
    · rw [heq] at herr; cases herr
    · rw [heq] at herr; cases herr
    · rw [heq] at herr ⊢
      dsimp only at herr ⊢
      rw [msgsOfArchives, ih _ herr]

theorem processZips_frame (env : Env) (l : List String) :
    ∀ (fs : FS) (p : FsPath), p ∉ (processZips env fs l).writes →
      (∀ n ∈ l, p ≠ [n]) →
      lookupFile (processZips env fs l).fs p = lookupFile fs p := by
  induction l with
  | nil =>
    intro fs p _ _
    rw [processZips_nil]
  | cons name rest ih =>
    intro fs p hw hn
    rcases processZips_cons_cases env fs name rest with
      ⟨heq, -⟩ | ⟨es, fs0, ws, e0, hl, he, heq⟩ | ⟨es, fs0, ws, hl, he, hu, heq⟩ |
      ⟨es, fs0, ws, hl, he, hu, heq⟩
    · rw [heq]
    · rw [heq] at hw ⊢
      dsimp only at hw ⊢
      have : (extractEntries env fs es).fs = fs0 := by rw [he]
      rw [← this]
      exact extractEntries_frame env es fs p (by rw [he]; exact hw)
    · rw [heq] at hw ⊢
      dsimp only at hw ⊢
      have : (extractEntries env fs es).fs = fs0 := by rw [he]
      rw [← this]
      exact extractEntries_frame env es fs p (by rw [he]; exact hw)
    · rw [heq] at hw ⊢
      dsimp only at hw ⊢
      have hwrest : p ∉ (processZips env (removeFile fs0 [name]) rest).writes :=
        fun hmem => hw (List.mem_append.mpr (Or.inr hmem))
      have hwes : p ∉ ws := fun hmem => hw (List.mem_append.mpr (Or.inl hmem))
      rw [ih (removeFile fs0 [name]) p hwrest
          (fun n hn' => hn n (List.mem_cons_of_mem _ hn')),
        lookupFile_removeFile_ne fs0 [name] p (hn name (List.mem_cons_self _ _))]
      have : (extractEntries env fs es).fs = fs0 := by rw [he]
      rw [← this]
      exact extractEntries_frame env es fs p (by rw [he]; exact hwes)

theorem processZips_exists_mono (env : Env) (l : List String) :
    ∀ (fs : FS) (p : FsPath), fileExists fs p = true →
      (∀ n ∈ l, p ≠ [n]) →
      fileExists (processZips env fs l).fs p = true := by
  induction l with
  | nil =>
    intro fs p hp _
    rw [processZips_nil]
    exact hp
  | cons name rest ih =>
    intro fs p hp hn
    rcases processZips_cons_cases env fs name rest with
      ⟨heq, -⟩ | ⟨es, fs0, ws, e0, hl, he, heq⟩ | ⟨es, fs0, ws, hl, he, hu, heq⟩ |
      ⟨es, fs0, ws, hl, he, hu, heq⟩
    · rw [heq]; exact hp
    · rw [heq]
      have : (extractEntries env fs es).fs = fs0 := by rw [he]
      rw [← this]
      exact extractEntries_exists_mono env es fs p hp
    · rw [heq]
      have : (extractEntries env fs es).fs = fs0 := by rw [he]
      rw [← this]
      exact extractEntries_exists_mono env es fs p hp
    · rw [heq]
      dsimp only
      refine ih (removeFile fs0 [name]) p ?_
        (fun n hn' => hn n (List.mem_cons_of_mem _ hn'))
      rw [fileExists,
        lookupFile_removeFile_ne fs0 [name] p (hn name (List.mem_cons_self _ _))]
      have : (extractEntries env fs es).fs = fs0 := by rw [he]
      rw [← this]
      exact extractEntries_exists_mono env es fs p hp

theorem processZips_exists_rev (env : Env) (l : List String) :
    ∀ (fs : FS) (p : FsPath), fileExists (processZips env fs l).fs p = true →
      fileExists fs p = true ∨ p ∈ (processZips env fs l).writes := by
  induction l with
  | nil =>
    intro fs p hp
    rw [processZips_nil] at hp
    exact Or.inl hp
  | cons name rest ih =>
    intro fs p hp
    rcases processZips_cons_cases env fs name rest with
      ⟨heq, -⟩ | ⟨es, fs0, ws, e0, hl, he, heq⟩ | ⟨es, fs0, ws, hl, he, hu, heq⟩ |
      ⟨es, fs0, ws, hl, he, hu, heq⟩
    · rw [heq] at hp
      exact Or.inl hp
    · rw [heq] at hp ⊢
      dsimp only at hp ⊢
      have hfs0 : (extractEntries env fs es).fs = fs0 := by rw [he]
      have := extractEntries_exists_rev env es fs p (by rw [hfs0]; exact hp)
      rwa [he] at this
    · rw [heq] at hp ⊢
      dsimp only at hp ⊢
      have hfs0 : (extractEntries env fs es).fs = fs0 := by rw [he]
      have := extractEntries_exists_rev env es fs p (by rw [hfs0]; exact hp)
      rwa [he] at this
    · rw [heq] at hp ⊢
      dsimp only at hp ⊢
      rcases ih (removeFile fs0 [name]) p hp with hex | hmem
      · have hfs0 : (extractEntries env fs es).fs = fs0 := by rw [he]
        have := extractEntries_exists_rev env es fs p
          (by rw [hfs0]; exact fileExists_removeFile_rev fs0 p [name] hex)
        rw [he] at this
        rcases this with hex' | hmem'
        · exact Or.inl hex'
        · exact Or.inr (List.mem_append.mpr (Or.inl hmem'))
      · exact Or.inr (List.mem_append.mpr (Or.inr hmem))

theorem processZips_success_deleted (env : Env) (l : List String) :
    ∀ fs : FS, (processZips env fs l).err = none →
      ∀ n ∈ l, fileExists (processZips env fs l).fs [n] = true →
        [n] ∈ (processZips env fs l).writes := by
  induction l with
  | nil =>
    intro fs _ n hn
    cases hn
  | cons name rest ih =>
    intro fs herr n hn hex
    rcases processZips_cons_cases env fs name rest with
      ⟨heq, -⟩ | ⟨es, fs0, ws, e0, hl, he, heq⟩ | ⟨es, fs0, ws, hl, he, hu, heq⟩ |
      ⟨es, fs0, ws, hl, he, hu, heq⟩
    · rw [heq] at herr; cases herr
    · rw [heq] at herr; cases herr
    · rw [heq] at herr; cases herr
    · rw [heq] at herr hex ⊢
      dsimp only at herr hex ⊢
      rcases List.mem_cons.mp hn with hn0 | hn'
      · rw [hn0] at hex ⊢
        rcases processZips_exists_rev env rest (removeFile fs0 [name]) [name] hex with
          hex' | hmem
        · rw [fileExists, lookupFile_removeFile_self] at hex'
          cases hex'
        · exact List.mem_append.mpr (Or.inr hmem)
      · exact List.mem_append.mpr
          (Or.inr (ih (removeFile fs0 [name]) herr n hn' hex))

theorem processZips_writes_sanitized (env : Env) (l : List String) :
    ∀ (fs : FS) (w : FsPath), w ∈ (processZips env fs l).writes →
      ∃ name, w = sanitizeParts name := by
  induction l with
  | nil =>
    intro fs w hw
    rw [processZips_nil] at hw
    cases hw
  | cons name rest ih =>
    intro fs w hw
    rcases processZips_cons_cases env fs name rest with
      ⟨heq, -⟩ | ⟨es, fs0, ws, e0, hl, he, heq⟩ | ⟨es, fs0, ws, hl, he, hu, heq⟩ |
      ⟨es, fs0, ws, hl, he, hu, heq⟩
    · rw [heq] at hw
      cases hw
    · rw [heq] at hw
      dsimp only at hw
      rcases extractEntries_writes_spec env es fs w (by rw [he]; exact hw) with ⟨e, -, hwe⟩
      exact ⟨e.1, hwe⟩
    · rw [heq] at hw
      dsimp only at hw
      rcases extractEntries_writes_spec env es fs w (by rw [he]; exact hw) with ⟨e, -, hwe⟩
      exact ⟨e.1, hwe⟩
    · rw [heq] at hw
      dsimp only at hw
      rcases List.mem_append.mp hw with hmem | hmem
      · rcases extractEntries_writes_spec env es fs w (by rw [he]; exact hmem) with ⟨e, -, hwe⟩
        exact ⟨e.1, hwe⟩
      · exact ih (removeFile fs0 [name]) w hmem

end ZipSweep

namespace ZipSweep

/-! ### Unfolding lemmas for `main` -/

theorem main_empty (env : Env) (fs : FS) (h : discover fs = []) :
    main env fs = ⟨fs, [noZipMsg], [], .ret 1⟩ := by
  simp [main, h]

theorem main_nonempty (env : Env) (fs : FS) (h : discover fs ≠ []) :
    main env fs =
      match (processZips env fs (discover fs)).err with
      | some e => ⟨(processZips env fs (discover fs)).fs,
          (processZips env fs (discover fs)).output,
          (processZips env fs (discover fs)).writes, .exc e⟩
      | none => ⟨(processZips env fs (discover fs)).fs,
          (processZips env fs (discover fs)).output ++ [summaryMsg (discover fs).length],
          (processZips env fs (discover fs)).writes, .ret 0⟩ := by
  have hne : (discover fs).isEmpty = false := by
    cases hd : discover fs with
    | nil => exact absurd hd h
    | cons a l => rfl
  simp only [main, hne, Bool.false_eq_true, if_false]
  rcases hp : processZips env fs (discover fs) with ⟨fs', out, ws, err⟩
  cases err <;> rfl

theorem main_err_eq (env : Env) (fs : FS) (e : Err) (h : discover fs ≠ [])
    (he : (processZips env fs (discover fs)).err = some e) :
    main env fs = ⟨(processZips env fs (discover fs)).fs,
      (processZips env fs (discover fs)).output,
      (processZips env fs (discover fs)).writes, .exc e⟩ := by
  rw [main_nonempty env fs h, he]

theorem main_ok_eq (env : Env) (fs : FS) (h : discover fs ≠ [])
    (he : (processZips env fs (discover fs)).err = none) :
    main env fs = ⟨(processZips env fs (discover fs)).fs,
      (processZips env fs (discover fs)).output ++ [summaryMsg (discover fs).length],
      (processZips env fs (discover fs)).writes, .ret 0⟩ := by
  rw [main_nonempty env fs h, he]

theorem main_exc_inv (env : Env) (fs : FS) (e : Err)
    (h : (main env fs).outcome = .exc e) :
    discover fs ≠ [] ∧ (processZips env fs (discover fs)).err = some e := by
  by_cases hd : discover fs = []
  · rw [main_empty env fs hd] at h
    cases h
  · refine ⟨hd, ?_⟩
    rcases herr : (processZips env fs (discover fs)).err with _ | e'
    · rw [main_ok_eq env fs hd herr] at h
      cases h
    · rw [main_err_eq env fs e' hd herr] at h
      cases h
      rfl

theorem main_ret0_inv (env : Env) (fs : FS)
    (h : (main env fs).outcome = .ret 0) :
    discover fs ≠ [] ∧ (processZips env fs (discover fs)).err = none := by
  by_cases hd : discover fs = []
  · rw [main_empty env fs hd] at h
    cases h
  · refine ⟨hd, ?_⟩
    rcases herr : (processZips env fs (discover fs)).err with _ | e'
    · rfl
    · rw [main_err_eq env fs e' hd herr] at h
      cases h

theorem processExit_of_exc (env : Env) (fs : FS) (e : Err)
    (h : (main env fs).outcome = .exc e) : processExit (main env fs) = 1 := by
  rw [processExit, h]

theorem processExit_of_ret (env : Env) (fs : FS) (c : Nat)
    (h : (main env fs).outcome = .ret c) : processExit (main env fs) = c := by
  rw [processExit, h]

theorem main_outcome_cases (env : Env) (fs : FS) :
    (main env fs).outcome = .ret 0 ∨ (main env fs).outcome = .ret 1 ∨
      ∃ e, (main env fs).outcome = .exc e := by
  by_cases hd : discover fs = []
  · rw [main_empty env fs hd]
    exact Or.inr (Or.inl rfl)
  · rcases herr : (processZips env fs (discover fs)).err with _ | e'
    · rw [main_ok_eq env fs hd herr]
      exact Or.inl rfl
    · rw [main_err_eq env fs e' hd herr]
      exact Or.inr (Or.inr ⟨e', rfl⟩)

end ZipSweep

namespace ZipSweep

/-- After fully processing one valid archive whose member paths avoid the
single-segment paths of `zips`, the file at any other name of `zips` is
unchanged. -/
theorem step_lookup_eq (env : Env) (zips : List String) (fs fs0 : FS)
    (name : String) (es : List (String × FileData)) (ws : List FsPath)
    (err0 : Option Err)
    (hes : ∀ e ∈ es, ∀ m ∈ zips, sanitizeParts e.1 ≠ [m])
    (he : extractEntries env fs es = ⟨fs0, ws, err0⟩)
    (m : String) (hm : m ∈ zips) (hmn : m ≠ name) :
    lookupFile (removeFile fs0 [name]) [m] = lookupFile fs [m] := by
  have hmn' : ([m] : FsPath) ≠ [name] := by simpa using hmn
  rw [lookupFile_removeFile_ne fs0 [name] [m] hmn']
  have hfs0 : (extractEntries env fs es).fs = fs0 := by rw [he]
  rw [← hfs0]
  apply extractEntries_frame
  intro hmem
  rcases extractEntries_writes_spec env es fs [m] hmem with ⟨e, hein, hwe⟩
  exact hes e hein m hm hwe.symm

/-- No path written during the processing loop is the single-segment path of
a name in `zips`, provided every archive (against the current filesystem) is
valid with members avoiding those paths. -/
theorem processZips_writes_avoid (env : Env) (zips : List String) :
    ∀ (l : List String) (fs : FS),
      (∀ n ∈ l, n ∈ zips) →
      l.Nodup →
      (∀ n ∈ l, validArchiveAt fs zips n = true) →
      ∀ w ∈ (processZips env fs l).writes, ∀ m ∈ zips, w ≠ [m] := by
  intro l
  induction l with
  | nil =>
    intro fs _ _ _ w hw
    rw [processZips_nil] at hw
    cases hw
  | cons name rest ih =>
    intro fs hsub hnd hv w hw m hm
    rcases validArchiveAt_spec fs zips name (hv name (List.mem_cons_self _ _)) with
      ⟨es, hl, hes⟩
    have hesm : ∀ e ∈ es, ∀ m' ∈ zips, sanitizeParts e.1 ≠ [m'] :=
      fun e hein m' hm' => (hes e hein).2 m' hm'
    rcases processZips_cons_cases env fs name rest with
      ⟨heq, hno⟩ | ⟨es', fs0, ws, e0, hl', he, heq⟩ | ⟨es', fs0, ws, hl', he, hu, heq⟩ |
      ⟨es', fs0, ws, hl', he, hu, heq⟩
    · exact absurd hl (hno es)
    · have hes' : es' = es := by
        rw [hl] at hl'
        exact (FileData.zip.inj (Option.some.inj hl')).symm
      subst hes'
      rw [heq] at hw
      dsimp only at hw
      rcases extractEntries_writes_spec env es' fs w (by rw [he]; exact hw) with
        ⟨e, hein, hwe⟩
      exact fun hwm => hesm e hein m hm (hwe ▸ hwm)
    · have hes' : es' = es := by
        rw [hl] at hl'
        exact (FileData.zip.inj (Option.some.inj hl')).symm
      subst hes'
      rw [heq] at hw
      dsimp only at hw
      rcases extractEntries_writes_spec env es' fs w (by rw [he]; exact hw) with
        ⟨e, hein, hwe⟩
      exact fun hwm => hesm e hein m hm (hwe ▸ hwm)
    · have hes' : es' = es := by
        rw [hl] at hl'
        exact (FileData.zip.inj (Option.some.inj hl')).symm
      subst hes'
      rw [heq] at hw
      dsimp only at hw
      rcases List.mem_append.mp hw with hmem | hmem
      · rcases extractEntries_writes_spec env es' fs w (by rw [he]; exact hmem) with
          ⟨e, hein, hwe⟩
        exact fun hwm => hesm e hein m hm (hwe ▸ hwm)
      · have hnd' : rest.Nodup := (List.nodup_cons.mp hnd).2
        have hname : name ∉ rest := (List.nodup_cons.mp hnd).1
        have hsub' : ∀ n ∈ rest, n ∈ zips :=
          fun n hn => hsub n (List.mem_cons_of_mem _ hn)
        have hv' : ∀ n ∈ rest, validArchiveAt (removeFile fs0 [name]) zips n = true := by
          intro n hn
          have hne : n ≠ name := fun hh => hname (hh ▸ hn)
          rw [validArchiveAt_congr fs _ zips n
            (step_lookup_eq env zips fs fs0 name es' ws none hesm he n (hsub' n hn) hne)]
          exact hv n (List.mem_cons_of_mem _ hn)
        exact ih (removeFile fs0 [name]) hsub' hnd' hv' w hmem m hm

/-- Master lemma for a fault-free pass over valid, non-colliding archives:
the loop finishes without error, every archive file ends deleted, and every
member of every archive exists at its sanitized path afterwards. -/
theorem processZips_all_ok (env : Env) (zips : List String)
    (hwr : ∀ p, env.writeFails p = false) :
    ∀ (l : List String) (fs : FS),
      (∀ n ∈ l, n ∈ zips) →
      l.Nodup →
      (∀ n ∈ l, validArchiveAt fs zips n = true) →
      (∀ n ∈ l, env.unlinkFails [n] = false) →
      (processZips env fs l).err = none ∧
      (∀ n ∈ l, lookupFile (processZips env fs l).fs [n] = none) ∧
      (∀ n ∈ l, ∀ es, lookupFile fs [n] = some (.zip es) →
        ∀ e ∈ es, fileExists (processZips env fs l).fs (sanitizeParts e.1) = true) := by
  intro l
  induction l with
  | nil =>
    intro fs _ _ _ _
    rw [processZips_nil]
    exact ⟨rfl, fun n hn => absurd hn (List.not_mem_nil n), fun n hn => absurd hn (List.not_mem_nil n)⟩
  | cons name rest ih =>
    intro fs hsub hnd hv hu
    rcases validArchiveAt_spec fs zips name (hv name (List.mem_cons_self _ _)) with
      ⟨es, hl, hes⟩
    have hesm : ∀ e ∈ es, ∀ m' ∈ zips, sanitizeParts e.1 ≠ [m'] :=
      fun e hein m' hm' => (hes e hein).2 m' hm'
    have hesn : ∀ e ∈ es, sanitizeParts e.1 ≠ [] :=
      fun e hein => (hes e hein).1
    rcases he : extractEntries env fs es with ⟨fs0, ws0, err0⟩
    have hok := extractEntries_ok env es fs hesn hwr
    rw [he] at hok
    have herr0 : err0 = none := hok.1
    subst herr0
    have heq := processZips_cons_step env fs fs0 name rest es ws0 hl he
      (hu name (List.mem_cons_self _ _))
    have hnd' : rest.Nodup := (List.nodup_cons.mp hnd).2
    have hname : name ∉ rest := (List.nodup_cons.mp hnd).1
    have hsub' : ∀ n ∈ rest, n ∈ zips :=
      fun n hn => hsub n (List.mem_cons_of_mem _ hn)
    have hstep : ∀ n ∈ rest, lookupFile (removeFile fs0 [name]) [n] = lookupFile fs [n] := by
      intro n hn
      have hne : n ≠ name := fun hh => hname (hh ▸ hn)
      exact step_lookup_eq env zips fs fs0 name es ws0 none hesm he n (hsub' n hn) hne
    have hv' : ∀ n ∈ rest, validArchiveAt (removeFile fs0 [name]) zips n = true := by
      intro n hn
      rw [validArchiveAt_congr fs _ zips n (hstep n hn)]
      exact hv n (List.mem_cons_of_mem _ hn)
    have hu' : ∀ n ∈ rest, env.unlinkFails [n] = false :=
      fun n hn => hu n (List.mem_cons_of_mem _ hn)
    rcases ih (removeFile fs0 [name]) hsub' hnd' hv' hu' with ⟨ih_err, ih_del, ih_ex⟩
    have havoid := processZips_writes_avoid env zips rest (removeFile fs0 [name])
      hsub' hnd' hv'
    rw [heq]
    dsimp only
    refine ⟨ih_err, ?_, ?_⟩
    · intro n hn
      rcases List.mem_cons.mp hn with hn0 | hn'
      · subst hn0
        rw [processZips_frame env rest (removeFile fs0 [n]) [n] ?_ ?_]
        · exact lookupFile_removeFile_self fs0 [n]
        · intro hmem
          exact havoid [n] hmem n (hsub n (List.mem_cons_self _ _)) rfl
        · intro n' hn'
          have : n' ≠ n := fun hh => hname (hh ▸ hn')
          simpa using fun hh => this hh.symm
      · exact ih_del n hn'
    · intro n hn es0 hl0 e hein
      rcases List.mem_cons.mp hn with hn0 | hn'
      · subst hn0
        have hes0 : es0 = es := by
          rw [hl] at hl0
          exact (FileData.zip.inj (Option.some.inj hl0)).symm
        subst hes0
        have hx : fileExists fs0 (sanitizeParts e.1) = true := hok.2.2 e hein
        have hxr : fileExists (removeFile fs0 [n]) (sanitizeParts e.1) = true := by
          rw [fileExists, lookupFile_removeFile_ne fs0 [n] (sanitizeParts e.1)
            (hesm e hein n (hsub n (List.mem_cons_self _ _)))]
          exact hx
        exact processZips_exists_mono env rest (removeFile fs0 [n]) (sanitizeParts e.1)
          hxr (fun n' hn' => hesm e hein n' (hsub' n' hn'))
      · have hl0' : lookupFile (removeFile fs0 [name]) [n] = some (.zip es0) := by
          rw [hstep n hn']
          exact hl0
        exact ih_ex n hn' es0 hl0' e hein

end ZipSweep

namespace ZipSweep

/-- If the processing loop aborts with an extraction-type error (anything but
an unlink failure), the list splits as fully-processed archives, then the
failing archive — whose status line is the last output and whose file is
still present — with all later archives still present and unprocessed. -/
theorem processZips_err_extraction (env : Env) (e : Err) (hne : e ≠ .unlinkFail) :
    ∀ (l : List String) (fs : FS),
      l.Nodup →
      (∀ n ∈ l, fileExists fs [n] = true) →
      (processZips env fs l).err = some e →
      ∃ pre cur post,
        l = pre ++ cur :: post ∧
        (processZips env fs l).output = msgsOfArchives pre ++ [extractingMsg cur] ∧
        fileExists (processZips env fs l).fs [cur] = true ∧
        (∀ m ∈ post, fileExists (processZips env fs l).fs [m] = true) := by
  intro l
  induction l with
  | nil =>
    intro fs _ _ herr
    rw [processZips_nil] at herr
    cases herr
  | cons name rest ih =>
    intro fs hnd hex herr
    rcases processZips_cons_cases env fs name rest with
      ⟨heq, hno⟩ | ⟨es, fs0, ws, e0, hl, he, heq⟩ | ⟨es, fs0, ws, hl, he, hu, heq⟩ |
      ⟨es, fs0, ws, hl, he, hu, heq⟩
    · refine ⟨[], name, rest, rfl, ?_, ?_, ?_⟩
      · rw [heq]
        rfl
      · rw [heq]
        exact hex name (List.mem_cons_self _ _)
      · intro m hm
        rw [heq]
        exact hex m (List.mem_cons_of_mem _ hm)
    · have hfs0 : (extractEntries env fs es).fs = fs0 := by rw [he]
      refine ⟨[], name, rest, rfl, by rw [heq]; rfl, ?_, ?_⟩
      · rw [heq]
        dsimp only
        rw [← hfs0]
        exact extractEntries_exists_mono env es fs [name] (hex name (List.mem_cons_self _ _))
      · intro m hm
        rw [heq]
        dsimp only
        rw [← hfs0]
        exact extractEntries_exists_mono env es fs [m] (hex m (List.mem_cons_of_mem _ hm))
    · rw [heq] at herr
      dsimp only at herr
      exact absurd (Option.some.inj herr).symm hne
    · rw [heq] at herr ⊢
      dsimp only at herr ⊢
      have hfs0 : (extractEntries env fs es).fs = fs0 := by rw [he]
      have hnd' : rest.Nodup := (List.nodup_cons.mp hnd).2
      have hname : name ∉ rest := (List.nodup_cons.mp hnd).1
      have hex' : ∀ m ∈ rest, fileExists (removeFile fs0 [name]) [m] = true := by
        intro m hm
        have hmn : ([m] : FsPath) ≠ [name] := by
          simp only [ne_eq, List.cons.injEq, and_true]
          exact fun hh => hname (hh ▸ hm)
        rw [fileExists, lookupFile_removeFile_ne fs0 [name] [m] hmn, ← hfs0]
        exact extractEntries_exists_mono env es fs [m] (hex m (List.mem_cons_of_mem _ hm))
      rcases ih (removeFile fs0 [name]) hnd' hex' herr with
        ⟨pre, cur, post, hsplit, hout, hcur, hpost⟩
      refine ⟨name :: pre, cur, post, by rw [hsplit, List.cons_append], ?_, hcur, hpost⟩
      rw [hout, msgsOfArchives]
      simp [List.append_assoc]

end ZipSweep

namespace ZipSweep

/-- If deletion fails exactly at archive `cur` (after the archives of `pre`
processed cleanly), the loop stops with the unlink failure: `cur`'s file and
its freshly extracted members are on disk, the `pre` archives are extracted
and deleted, and the archives of `post` are untouched and still present. -/
theorem processZips_err_unlink (env : Env) (zips : List String)
    (hwr : ∀ p, env.writeFails p = false) :
    ∀ (pre : List String) (cur : String) (post : List String) (fs : FS),
      (∀ n ∈ pre ++ cur :: post, n ∈ zips) →
      (pre ++ cur :: post).Nodup →
      (∀ n ∈ pre ++ cur :: post, validArchiveAt fs zips n = true) →
      (∀ p ∈ pre, env.unlinkFails [p] = false) →
      env.unlinkFails [cur] = true →
      (processZips env fs (pre ++ cur :: post)).err = some .unlinkFail ∧
      (processZips env fs (pre ++ cur :: post)).output =
        msgsOfArchives pre ++ [extractingMsg cur, extractedMsg cur] ∧
      fileExists (processZips env fs (pre ++ cur :: post)).fs [cur] = true ∧
      (∀ es, lookupFile fs [cur] = some (.zip es) → ∀ e ∈ es,
        fileExists (processZips env fs (pre ++ cur :: post)).fs (sanitizeParts e.1) = true) ∧
      (∀ q ∈ pre, lookupFile (processZips env fs (pre ++ cur :: post)).fs [q] = none) ∧
      (∀ q ∈ pre, ∀ es, lookupFile fs [q] = some (.zip es) → ∀ e ∈ es,
        fileExists (processZips env fs (pre ++ cur :: post)).fs (sanitizeParts e.1) = true) ∧
      (∀ m ∈ post, fileExists (processZips env fs (pre ++ cur :: post)).fs [m] = true) := by
  intro pre
  induction pre with
  | nil =>
    intro cur post fs hsub hnd hv hpre hcur
    simp only [List.nil_append] at hsub hnd hv ⊢
    rcases validArchiveAt_spec fs zips cur (hv cur (List.mem_cons_self _ _)) with
      ⟨es, hl, hes⟩
    have hesn : ∀ e ∈ es, sanitizeParts e.1 ≠ [] := fun e he' => (hes e he').1
    rcases he : extractEntries env fs es with ⟨fs0, ws0, err0⟩
    have hok := extractEntries_ok env es fs hesn hwr
    rw [he] at hok
    have herr0 : err0 = none := hok.1
    subst herr0
    have hfs0 : (extractEntries env fs es).fs = fs0 := by rw [he]
    have heq := processZips_cons_unlinkErr env fs fs0 cur post es ws0 hl he hcur
    rw [heq]
    dsimp only
    refine ⟨rfl, rfl, ?_, ?_, by simp, by simp, ?_⟩
    · rw [← hfs0]
      exact extractEntries_exists_mono env es fs [cur] (by simp [fileExists, hl])
    · intro es0 hl0 e hein
      have hes0 : es0 = es := by
        rw [hl] at hl0
        exact (FileData.zip.inj (Option.some.inj hl0)).symm
      subst hes0
      exact hok.2.2 e hein
    · intro m hm
      have hm' : fileExists fs [m] = true :=
        fileExists_of_validArchiveAt fs zips m (hv m (List.mem_cons_of_mem _ hm))
      rw [← hfs0]
      exact extractEntries_exists_mono env es fs [m] hm'
  | cons p pre' ih =>
    intro cur post fs hsub hnd hv hpre hcur
    simp only [List.cons_append] at hsub hnd hv ⊢
    rcases validArchiveAt_spec fs zips p (hv p (List.mem_cons_self _ _)) with
      ⟨es, hl, hes⟩
    have hesn : ∀ e ∈ es, sanitizeParts e.1 ≠ [] := fun e he' => (hes e he').1
    have hesm : ∀ e ∈ es, ∀ m' ∈ zips, sanitizeParts e.1 ≠ [m'] :=
      fun e he' m' hm' => (hes e he').2 m' hm'
    rcases he : extractEntries env fs es with ⟨fs0, ws0, err0⟩
    have hok := extractEntries_ok env es fs hesn hwr
    rw [he] at hok
    have herr0 : err0 = none := hok.1
    subst herr0
    have hfs0 : (extractEntries env fs es).fs = fs0 := by rw [he]
    have hup : env.unlinkFails [p] = false := hpre p (List.mem_cons_self _ _)
    have heq := processZips_cons_step env fs fs0 p (pre' ++ cur :: post) es ws0 hl he hup
    have hnd' : (pre' ++ cur :: post).Nodup := (List.nodup_cons.mp hnd).2
    have hname : p ∉ pre' ++ cur :: post := (List.nodup_cons.mp hnd).1
    have hsub' : ∀ n ∈ pre' ++ cur :: post, n ∈ zips :=
      fun n hn => hsub n (List.mem_cons_of_mem _ hn)
    have hstep : ∀ n ∈ pre' ++ cur :: post,
        lookupFile (removeFile fs0 [p]) [n] = lookupFile fs [n] := by
      intro n hn
      have hne : n ≠ p := fun hh => hname (hh ▸ hn)
      exact step_lookup_eq env zips fs fs0 p es ws0 none hesm he n (hsub' n hn) hne
    have hv' : ∀ n ∈ pre' ++ cur :: post,
        validArchiveAt (removeFile fs0 [p]) zips n = true := by
      intro n hn
      rw [validArchiveAt_congr fs _ zips n (hstep n hn)]
      exact hv n (List.mem_cons_of_mem _ hn)
    have hpre' : ∀ q ∈ pre', env.unlinkFails [q] = false :=
      fun q hq => hpre q (List.mem_cons_of_mem _ hq)
    rcases ih cur post (removeFile fs0 [p]) hsub' hnd' hv' hpre' hcur with
      ⟨ih_err, ih_out, ih_cur, ih_cure, ih_del, ih_pree, ih_post⟩
    have hcurmem : cur ∈ pre' ++ cur :: post :=
      List.mem_append.mpr (Or.inr (List.mem_cons_self _ _))
    have havoid := processZips_writes_avoid env zips (pre' ++ cur :: post)
      (removeFile fs0 [p]) hsub' hnd' hv'
    rw [heq]
    dsimp only
    refine ⟨ih_err, ?_, ih_cur, ?_, ?_, ?_, ih_post⟩
    · rw [ih_out, msgsOfArchives]
      simp [List.append_assoc]
    · intro es0 hl0 e hein
      refine ih_cure es0 ?_ e hein
      rw [hstep cur hcurmem]
      exact hl0
    · intro q hq
      rcases List.mem_cons.mp hq with hq0 | hq'
      · subst hq0
        rw [processZips_frame env (pre' ++ cur :: post) (removeFile fs0 [q]) [q] ?_ ?_]
        · exact lookupFile_removeFile_self fs0 [q]
        · intro hmem
          exact havoid [q] hmem q (hsub q (List.mem_cons_self _ _)) rfl
        · intro n' hn'
          have : n' ≠ q := fun hh => hname (hh ▸ hn')
          simp only [ne_eq, List.cons.injEq, and_true]
          exact fun hh => this hh.symm
      · exact ih_del q hq'
    · intro q hq es0 hl0 e hein
      rcases List.mem_cons.mp hq with hq0 | hq'
      · subst hq0
        have hes0 : es0 = es := by
          rw [hl] at hl0
          exact (FileData.zip.inj (Option.some.inj hl0)).symm
        subst hes0
        have hx : fileExists fs0 (sanitizeParts e.1) = true := hok.2.2 e hein
        have hxr : fileExists (removeFile fs0 [q]) (sanitizeParts e.1) = true := by
          rw [fileExists, lookupFile_removeFile_ne fs0 [q] (sanitizeParts e.1)
            (hesm e hein q (hsub q (List.mem_cons_self _ _)))]
          exact hx
        exact processZips_exists_mono env (pre' ++ cur :: post) (removeFile fs0 [q])
          (sanitizeParts e.1) hxr (fun n' hn' => hesm e hein n' (hsub' n' hn'))
      · refine ih_pree q hq' es0 ?_ e hein
        rw [hstep q (List.mem_append.mpr (Or.inl hq'))]
        exact hl0

end ZipSweep

namespace ZipSweep

/-! ### Remaining small helpers -/

theorem main_fs_eq (env : Env) (fs : FS) (h : discover fs ≠ []) :
    (main env fs).fs = (processZips env fs (discover fs)).fs := by
  rcases herr : (processZips env fs (discover fs)).err with _ | e
  · rw [main_ok_eq env fs h herr]
  · rw [main_err_eq env fs e h herr]

theorem main_writes_eq (env : Env) (fs : FS) (h : discover fs ≠ []) :
    (main env fs).writes = (processZips env fs (discover fs)).writes := by
  rcases herr : (processZips env fs (discover fs)).err with _ | e
  · rw [main_ok_eq env fs h herr]
  · rw [main_err_eq env fs e h herr]

theorem fileExists_of_topLevel (fs : FS) (n : String) (h : n ∈ topLevelNames fs) :
    fileExists fs [n] = true := by
  rcases List.mem_map.mp ((mem_topLevelNames fs n).mp h) with ⟨e, he, hkey⟩
  exact (fileExists_iff_mem fs [n]).mpr ⟨e.2, by rwa [← hkey, Prod.mk.eta]⟩

theorem topLevel_of_fileExists (fs : FS) (n : String) (h : fileExists fs [n] = true) :
    n ∈ topLevelNames fs := by
  rcases (fileExists_iff_mem fs [n]).mp h with ⟨d, hd⟩
  exact (mem_topLevelNames fs n).mpr (List.mem_map.mpr ⟨([n], d), hd, rfl⟩)

/-! ### Concrete fixtures used to separate the claims from nearby variants -/

/-- A working directory with one archive holding a nested member, plus an
unrelated top-level file. -/
def fsPlain : FS :=
  [(["a.zip"], .zip [("sub/dir/file.txt", .notZip)]),
   (["note.txt"], .notZip)]

/-- Two valid archives and an unrelated file. -/
def fsTwo : FS :=
  [(["b.zip"], .zip []),
   (["a.zip"], .zip [("data.txt", .notZip)]),
   (["note.txt"], .notZip)]

/-- Three valid, non-colliding archives. -/
def fsThree : FS :=
  [(["a.zip"], .zip [("sub/dir/file.txt", .notZip)]),
   (["b.zip"], .zip []),
   (["c.zip"], .zip [("x.txt", .notZip)])]

/-- `a.zip` holds a member named `c.zip`, `b.zip` is corrupt, `c.zip` is a
valid archive: processing `a.zip` overwrites `c.zip` before the run fails on
`b.zip`. -/
def fsOverwriteLater : FS :=
  [(["a.zip"], .zip [("c.zip", .notZip)]),
   (["b.zip"], .notZip),
   (["c.zip"], .zip [])]

/-- `a.zip` holds a member named `b.zip` with bytes that are not a zip;
`b.zip` itself is a valid archive. -/
def fsOverwriteNext : FS :=
  [(["a.zip"], .zip [("b.zip", .notZip)]),
   (["b.zip"], .zip [])]

/-- A single corrupt archive. -/
def fsCorrupt : FS := [(["x.zip"], .notZip)]

/-- One valid archive and one corrupt archive after it. -/
def fsOneGoodOneBad : FS :=
  [(["a.zip"], .zip []),
   (["b.zip"], .notZip),
   (["c.zip"], .zip [])]

/-- An archive with a member whose stored path starts with `../`. -/
def fsTraversal : FS := [(["a.zip"], .zip [("../evil.txt", .notZip)])]

/-- An archive whose member is itself named like an archive. -/
def fsNested : FS := [(["a.zip"], .zip [("inner.zip", .zip [])])]

/-- A directory with no name matching `*.zip` case-sensitively. -/
def fsNoZip : FS :=
  [(["readme.txt"], .notZip),
   (["data.ZIP"], .zip [])]

/-- `a.zip` recreates `b.zip` as an empty archive; the original `b.zip` has a
member; deletion of `c.zip` fails. -/
def fsUnlinkDemo : FS :=
  [(["a.zip"], .zip [("b.zip", .zip [])]),
   (["b.zip"], .zip [("keep.txt", .notZip)]),
   (["c.zip"], .zip [])]

/-- Unlink of `c.zip` raises `OSError`; everything else succeeds. -/
def envUnlinkC : Env := ⟨fun _ => false, fun p => p == ["c.zip"]⟩

/-- Unlink of `b.zip` raises `OSError`; everything else succeeds. -/
def envUnlinkB : Env := ⟨fun _ => false, fun p => p == ["b.zip"]⟩

end ZipSweep

namespace ZipSweep

/-- C6: when discovery finds no matching archives, the run prints the
"none found" message, terminates with the distinguished non-zero
"nothing to do" status 1, and leaves the working directory unmodified. -/
theorem no_archives_outcome (env : Env) (fs : FS) (h : discover fs = []) :
    main env fs = ⟨fs, [noZipMsg], [], .ret 1⟩ ∧
    processExit (main env fs) = 1 ∧ processExit (main env fs) ≠ 0 := by
  refine ⟨main_empty env fs h, ?_, ?_⟩ <;> rw [main_empty env fs h] <;> simp [processExit]

/-- Witness for `no_archives_outcome`: a directory holding only `readme.txt`
and `data.ZIP` (wrong case) is a "nothing to do" run. -/
theorem no_archives_outcome_witness :
    main envOk fsNoZip = ⟨fsNoZip, [noZipMsg], [], .ret 1⟩ ∧
    processExit (main envOk fsNoZip) = 1 ∧ processExit (main envOk fsNoZip) ≠ 0 :=
  no_archives_outcome envOk fsNoZip (by decide)

/-- C8: discovery selects exactly the top-level names with the `.zip` suffix,
case-sensitively — `.ZIP` does not match — and hidden names are not
excluded (the membership is exactly suffix matching). -/
theorem discover_matches_zip_suffix (fs : FS) (n : String) :
    (n ∈ discover fs ↔ n ∈ topLevelNames fs ∧ matchesZipGlob n = true) ∧
    matchesZipGlob "archive.zip" = true ∧ matchesZipGlob "archive.ZIP" = false ∧
    matchesZipGlob ".hidden.zip" = true :=
  ⟨mem_discover fs n, by decide, by decide, by decide⟩

/-- C5: a successful run processes the discovered archives strictly
sequentially in ascending lexicographic filename order: the sorted list is
pairwise ordered, and the output is the concatenation of each archive's
extract/extracted/deleted lines in that order, then the summary. -/
theorem archives_processed_in_sorted_order (env : Env) (fs : FS)
    (h : (main env fs).outcome = .ret 0) :
    (discover fs).Pairwise (fun a b => strLe a b = true) ∧
    (main env fs).output =
      msgsOfArchives (discover fs) ++ [summaryMsg (discover fs).length] := by
  rcases main_ret0_inv env fs h with ⟨hd, herr⟩
  refine ⟨pairwise_discover fs, ?_⟩
  rw [main_ok_eq env fs hd herr]
  dsimp only
  rw [processZips_ok_output env (discover fs) fs herr]

/-- Witness for `archives_processed_in_sorted_order` on a directory listing
`b.zip` before `a.zip`. -/
theorem archives_processed_in_sorted_order_witness :
    (discover fsTwo).Pairwise (fun a b => strLe a b = true) ∧
    (main envOk fsTwo).output =
      msgsOfArchives (discover fsTwo) ++ [summaryMsg (discover fsTwo).length] :=
  archives_processed_in_sorted_order envOk fsTwo (by decide)

/-- C3 counterexample: an extraction error terminates the process with exit
status 1 — the same status as a run that found no archives — so the three
outcomes are not pairwise distinguishable by exit code. -/
theorem exit_code_collision :
    (main envOk fsCorrupt).outcome = .exc .badZip ∧
    processExit (main envOk fsCorrupt) = 1 ∧
    (main envOk ([] : FS)).outcome = .ret 1 ∧
    processExit (main envOk ([] : FS)) = 1 :=
  ⟨by decide, by decide, by decide, by decide⟩

/-- C3 amended: the exit code is always 0 or 1; it is 0 exactly for fully
successful runs; a run with no archives exits 1; and every run aborted by an
extraction or filesystem error also exits 1 (CPython's uncaught-exception
status), so the empty and error outcomes share an exit code. -/
theorem exit_code_classification (env : Env) (fs : FS) :
    (processExit (main env fs) = 0 ∨ processExit (main env fs) = 1) ∧
    ((main env fs).outcome = .ret 0 ↔ processExit (main env fs) = 0) ∧
    (discover fs = [] → processExit (main env fs) = 1) ∧
    (∀ e, (main env fs).outcome = .exc e → processExit (main env fs) = 1) := by
  have hcases := main_outcome_cases env fs
  refine ⟨?_, ⟨?_, ?_⟩, ?_, ?_⟩
  · rcases hcases with h | h | ⟨e, h⟩
    · exact Or.inl (processExit_of_ret env fs 0 h)
    · exact Or.inr (processExit_of_ret env fs 1 h)
    · exact Or.inr (processExit_of_exc env fs e h)
  · intro h0
    exact processExit_of_ret env fs 0 h0
  · intro hex
    rcases hcases with h | h | ⟨e, h⟩
    · exact h
    · rw [processExit_of_ret env fs 1 h] at hex
      exact absurd hex one_ne_zero
    · rw [processExit_of_exc env fs e h] at hex
      exact absurd hex one_ne_zero
  · intro hd
    rw [main_empty env fs hd]
    rfl
  · intro e he
    exact processExit_of_exc env fs e he

/-- Witness for `exit_code_classification`: the error-run exit status. -/
theorem exit_code_classification_witness :
    processExit (main envOk fsCorrupt) = 1 :=
  (exit_code_classification envOk fsCorrupt).2.2.2 Err.badZip (by decide)

/-- C10: the run's only filesystem modifications are at the paths it wrote
during extraction and at the discovered archives' own paths (deletion);
every other path's content is unchanged, and every written path consists of
ordinary segments only, so nothing outside the working directory is
touched. -/
theorem run_frame (env : Env) (fs : FS) :
    (∀ p : FsPath, p ∉ (main env fs).writes →
      (∀ n ∈ discover fs, p ≠ [n]) →
      lookupFile (main env fs).fs p = lookupFile fs p) ∧
    (∀ w ∈ (main env fs).writes, ordinarySegments w) := by
  by_cases hd : discover fs = []
  · rw [main_empty env fs hd]
    exact ⟨fun p _ _ => rfl, fun w hw => absurd hw (List.not_mem_nil w)⟩
  · constructor
    · intro p hpw hpn
      rw [main_fs_eq env fs hd]
      rw [main_writes_eq env fs hd] at hpw
      exact processZips_frame env (discover fs) fs p hpw hpn
    · intro w hw
      rw [main_writes_eq env fs hd] at hw
      rcases processZips_writes_sanitized env (discover fs) fs w hw with ⟨name, rfl⟩
      intro s hs
      exact mem_sanitizeParts name s hs

/-- Witness for `run_frame`: the unrelated `note.txt` is untouched by a run
that extracts and deletes `a.zip`. -/
theorem run_frame_witness :
    lookupFile (main envOk fsPlain).fs ["note.txt"] = lookupFile fsPlain ["note.txt"] :=
  (run_frame envOk fsPlain).1 ["note.txt"] (by decide) (by decide)

end ZipSweep

namespace ZipSweep

/-- C2 counterexample: both files of `fsOverwriteNext` are valid, readable
archives, yet the run fails with exit 1 instead of succeeding — extracting
`a.zip` overwrites `b.zip` with bytes that are not a zip before `b.zip` is
opened. -/
theorem successful_run_counterexample :
    lookupFile fsOverwriteNext ["a.zip"] = some (.zip [("b.zip", .notZip)]) ∧
    lookupFile fsOverwriteNext ["b.zip"] = some (.zip []) ∧
    (main envOk fsOverwriteNext).outcome = .exc .badZip ∧
    processExit (main envOk fsOverwriteNext) ≠ 0 :=
  ⟨rfl, rfl, by decide, by decide⟩

/-- C2 amended: if every discovered archive is a readable zip whose members
have nonempty sanitized paths that collide with no discovered archive name,
and no write or unlink faults occur, the run returns 0, every archive file
is gone, every member exists at its sanitized relative path, and the last
output line is the summary with the number of archives processed. -/
theorem successful_run_spec (env : Env) (fs : FS)
    (hwr : ∀ p, env.writeFails p = false)
    (hu : ∀ n ∈ discover fs, env.unlinkFails [n] = false)
    (hnd : (fs.map Prod.fst).Nodup)
    (hv : ∀ n ∈ discover fs, validArchiveAt fs (discover fs) n = true)
    (hne : discover fs ≠ []) :
    (main env fs).outcome = .ret 0 ∧
    processExit (main env fs) = 0 ∧
    (∀ n ∈ discover fs, lookupFile (main env fs).fs [n] = none) ∧
    (∀ n ∈ discover fs, ∀ es, lookupFile fs [n] = some (.zip es) →
      ∀ e ∈ es, fileExists (main env fs).fs (sanitizeParts e.1) = true) ∧
    (main env fs).output.getLast? = some (summaryMsg (discover fs).length) := by
  rcases processZips_all_ok env (discover fs) hwr (discover fs) fs
      (fun n hn => hn) (discover_nodup fs hnd) hv hu with ⟨herr, hdel, hex⟩
  have hmeq := main_ok_eq env fs hne herr
  refine ⟨by rw [hmeq], processExit_of_ret env fs 0 (by rw [hmeq]), ?_, ?_, ?_⟩
  · intro n hn
    rw [hmeq]
    exact hdel n hn
  · intro n hn es hl e hein
    rw [hmeq]
    exact hex n hn es hl e hein
  · rw [hmeq]
    dsimp only
    exact List.getLast?_concat _

/-- Witness for `successful_run_spec`: three valid archives; the summary
line reports "3", and the nested member lands at `sub/dir/file.txt`. -/
theorem successful_run_spec_witness :
    ((main envOk fsThree).outcome = .ret 0 ∧
     processExit (main envOk fsThree) = 0 ∧
     (∀ n ∈ discover fsThree, lookupFile (main envOk fsThree).fs [n] = none) ∧
     (∀ n ∈ discover fsThree, ∀ es, lookupFile fsThree [n] = some (.zip es) →
       ∀ e ∈ es, fileExists (main envOk fsThree).fs (sanitizeParts e.1) = true) ∧
     (main envOk fsThree).output.getLast? = some (summaryMsg (discover fsThree).length)) ∧
    (discover fsThree).length = 3 ∧
    summaryMsg 3 = "Finished extracting 3 file(s)." ∧
    fileExists (main envOk fsThree).fs ["sub", "dir", "file.txt"] = true :=
  ⟨successful_run_spec envOk fsThree (fun p => rfl) (fun n _ => rfl)
      (by decide) (by decide) (by decide),
    by decide, by decide, by decide⟩

/-- C1 counterexample: extraction of `b.zip` fails and `b.zip` is not
deleted, but the later archive `c.zip` is not left untouched — processing
`a.zip` already overwrote its content. -/
theorem extraction_failure_counterexample :
    (main envOk fsOverwriteLater).outcome = .exc .badZip ∧
    lookupFile fsOverwriteLater ["c.zip"] = some (.zip []) ∧
    lookupFile (main envOk fsOverwriteLater).fs ["c.zip"] = some .notZip ∧
    lookupFile (main envOk fsOverwriteLater).fs ["c.zip"] ≠
      lookupFile fsOverwriteLater ["c.zip"] := by
  refine ⟨by decide, rfl, rfl, ?_⟩
  intro h
  have h' : (some FileData.notZip : Option FileData) = some (FileData.zip []) := h
  nomatch h'

/-- C1 amended: when extraction of an archive fails, the run exits with
status 1, the discovered list splits at the failing archive, the output
stops right after that archive's "Extracting" line (so no later archive is
processed), the failing archive's file still exists, and every later archive
file still exists — though files written by earlier archives may have
changed their contents. -/
theorem extraction_failure_aborts_run (env : Env) (fs : FS) (e : Err)
    (hnd : (fs.map Prod.fst).Nodup)
    (herr : (main env fs).outcome = .exc e) (hne : e ≠ .unlinkFail) :
    processExit (main env fs) = 1 ∧
    ∃ pre cur post,
      discover fs = pre ++ cur :: post ∧
      (main env fs).output = msgsOfArchives pre ++ [extractingMsg cur] ∧
      fileExists (main env fs).fs [cur] = true ∧
      (∀ m ∈ post, fileExists (main env fs).fs [m] = true) := by
  rcases main_exc_inv env fs e herr with ⟨hd, hperr⟩
  rcases processZips_err_extraction env e hne (discover fs) fs (discover_nodup fs hnd)
      (fun n hn => fileExists_of_mem_discover fs n hn) hperr with
    ⟨pre, cur, post, hsplit, hout, hcur, hpost⟩
  have hmeq := main_err_eq env fs e hd hperr
  refine ⟨processExit_of_exc env fs e herr, pre, cur, post, hsplit, ?_, ?_, ?_⟩
  · rw [hmeq]
    exact hout
  · rw [hmeq]
    exact hcur
  · intro m hm
    rw [hmeq]
    exact hpost m hm

/-- Witness for `extraction_failure_aborts_run`: `a.zip` is processed,
`b.zip` is corrupt, `c.zip` is left for after the abort. -/
theorem extraction_failure_aborts_run_witness :
    processExit (main envOk fsOneGoodOneBad) = 1 ∧
    ∃ pre cur post,
      discover fsOneGoodOneBad = pre ++ cur :: post ∧
      (main envOk fsOneGoodOneBad).output = msgsOfArchives pre ++ [extractingMsg cur] ∧
      fileExists (main envOk fsOneGoodOneBad).fs [cur] = true ∧
      (∀ m ∈ post, fileExists (main envOk fsOneGoodOneBad).fs [m] = true) :=
  extraction_failure_aborts_run envOk fsOneGoodOneBad .badZip (by decide) (by decide)
    (by decide)

/-- C7 counterexample: deletion of `c.zip` fails and is propagated, but the
fully processed `a.zip` does not "remain extracted": its extracted member
`b.zip` was itself processed and deleted by the time of the failure. -/
theorem deletion_failure_counterexample :
    (main envUnlinkC fsUnlinkDemo).outcome = .exc .unlinkFail ∧
    (main envUnlinkC fsUnlinkDemo).output =
      msgsOfArchives ["a.zip", "b.zip"] ++ [extractingMsg "c.zip", extractedMsg "c.zip"] ∧
    lookupFile fsUnlinkDemo ["a.zip"] = some (.zip [("b.zip", .zip [])]) ∧
    fileExists (main envUnlinkC fsUnlinkDemo).fs ["b.zip"] = false :=
  ⟨by decide, by decide, rfl, by decide⟩

/-- C7 amended: when every discovered archive is valid with members that
collide with no archive name, and deletion first fails at archive `cur`
(after the archives of `pre` deleted cleanly), the failure propagates with
exit status 1, `cur`'s file and its extracted members remain on disk, and
the `pre` archives remain deleted with their extracted members on disk. -/
theorem deletion_failure_propagates (env : Env) (fs : FS)
    (pre : List String) (cur : String) (post : List String)
    (hwr : ∀ p, env.writeFails p = false)
    (hnd : (fs.map Prod.fst).Nodup)
    (hsplit : discover fs = pre ++ cur :: post)
    (hv : ∀ n ∈ discover fs, validArchiveAt fs (discover fs) n = true)
    (hpre : ∀ q ∈ pre, env.unlinkFails [q] = false)
    (hcur : env.unlinkFails [cur] = true) :
    (main env fs).outcome = .exc .unlinkFail ∧
    processExit (main env fs) = 1 ∧
    (main env fs).output = msgsOfArchives pre ++ [extractingMsg cur, extractedMsg cur] ∧
    fileExists (main env fs).fs [cur] = true ∧
    (∀ es, lookupFile fs [cur] = some (.zip es) → ∀ e ∈ es,
      fileExists (main env fs).fs (sanitizeParts e.1) = true) ∧
    (∀ q ∈ pre, lookupFile (main env fs).fs [q] = none) ∧
    (∀ q ∈ pre, ∀ es, lookupFile fs [q] = some (.zip es) → ∀ e ∈ es,
      fileExists (main env fs).fs (sanitizeParts e.1) = true) := by
  rcases processZips_err_unlink env (discover fs) hwr pre cur post fs
      (fun n hn => hsplit ▸ hn) (hsplit ▸ discover_nodup fs hnd)
      (fun n hn => hv n (hsplit ▸ hn)) hpre hcur with
    ⟨l_err, l_out, l_cur, l_cure, l_del, l_pree, l_post⟩
  have hd : discover fs ≠ [] := by
    rw [hsplit]
    simp
  have herr : (processZips env fs (discover fs)).err = some .unlinkFail := by
    rw [hsplit]
    exact l_err
  have hmeq := main_err_eq env fs .unlinkFail hd herr
  have houtc : (main env fs).outcome = .exc .unlinkFail := by rw [hmeq]
  refine ⟨houtc, processExit_of_exc env fs _ houtc, ?_, ?_, ?_, ?_, ?_⟩
  · rw [hmeq]
    dsimp only
    rw [hsplit]
    exact l_out
  · rw [hmeq]
    dsimp only
    rw [hsplit]
    exact l_cur
  · intro es hl e hein
    rw [hmeq]
    dsimp only
    rw [hsplit]
    exact l_cure es hl e hein
  · intro q hq
    rw [hmeq]
    dsimp only
    rw [hsplit]
    exact l_del q hq
  · intro q hq es hl e hein
    rw [hmeq]
    dsimp only
    rw [hsplit]
    exact l_pree q hq es hl e hein

/-- Witness for `deletion_failure_propagates`: `a.zip` is processed, then
unlink of `b.zip` fails after its extraction. -/
theorem deletion_failure_propagates_witness :
    (main envUnlinkB fsTwo).outcome = .exc .unlinkFail ∧
    processExit (main envUnlinkB fsTwo) = 1 ∧
    (main envUnlinkB fsTwo).output =
      msgsOfArchives ["a.zip"] ++ [extractingMsg "b.zip", extractedMsg "b.zip"] ∧
    fileExists (main envUnlinkB fsTwo).fs ["b.zip"] = true ∧
    (∀ es, lookupFile fsTwo ["b.zip"] = some (.zip es) → ∀ e ∈ es,
      fileExists (main envUnlinkB fsTwo).fs (sanitizeParts e.1) = true) ∧
    (∀ q ∈ ["a.zip"], lookupFile (main envUnlinkB fsTwo).fs [q] = none) ∧
    (∀ q ∈ ["a.zip"], ∀ es, lookupFile fsTwo [q] = some (.zip es) → ∀ e ∈ es,
      fileExists (main envUnlinkB fsTwo).fs (sanitizeParts e.1) = true) :=
  deletion_failure_propagates envUnlinkB fsTwo ["a.zip"] "b.zip" []
    (fun p => rfl) (by decide) (by decide) (by decide) (by decide) (by decide)

/-- C9 counterexample: a successful run can leave a freshly extracted
`inner.zip` in the directory, so the second run is not the "nothing to do"
outcome. -/
theorem idempotence_counterexample :
    (main envOk fsNested).outcome = .ret 0 ∧
    discover (main envOk fsNested).fs = ["inner.zip"] ∧
    (main envOk (main envOk fsNested).fs).outcome = .ret 0 ∧
    (main envOk (main envOk fsNested).fs).outcome ≠ .ret 1 :=
  ⟨by decide, by decide, by decide, by decide⟩

/-- C9 amended: after a successful run in which no written path's first
segment matches `*.zip` — so extraction created no top-level file and (via
`os.makedirs` for multi-segment member paths) no top-level directory whose
name the glob could match — the directory holds nothing matching `*.zip`,
and an immediate second run is the "nothing to do" outcome with exit
status 1.  The first-segment condition is what makes the directories the
filesystem model does not represent irrelevant here: every directory the
first run creates is named by the first segment of some written path. -/
theorem successful_run_idempotent (env env2 : Env) (fs : FS)
    (h : (main env fs).outcome = .ret 0)
    (hwz : (main env fs).writes.all createsNoZipName = true) :
    discover (main env fs).fs = [] ∧
    main env2 (main env fs).fs = ⟨(main env fs).fs, [noZipMsg], [], .ret 1⟩ ∧
    processExit (main env2 (main env fs).fs) = 1 := by
  rcases main_ret0_inv env fs h with ⟨hd, herr⟩
  have hfs := main_fs_eq env fs hd
  have hws := main_writes_eq env fs hd
  rw [hws] at hwz
  have hnozip : ∀ n ∈ topLevelNames (main env fs).fs, ¬matchesZipGlob n = true := by
    intro n hn hm
    have hex : fileExists (main env fs).fs [n] = true := fileExists_of_topLevel _ n hn
    rw [hfs] at hex
    have hwmem : [n] ∈ (processZips env fs (discover fs)).writes := by
      rcases processZips_exists_rev env (discover fs) fs [n] hex with hex0 | hmem
      · have hmem0 : n ∈ discover fs :=
          (mem_discover fs n).mpr ⟨topLevel_of_fileExists fs n hex0, hm⟩
        exact processZips_success_deleted env (discover fs) fs herr n hmem0 hex
      · exact hmem
    have hall := List.all_eq_true.mp hwz [n] hwmem
    simp [createsNoZipName, hm] at hall
  have hdisc : discover (main env fs).fs = [] := (discover_eq_nil_iff _).mpr hnozip
  exact ⟨hdisc, main_empty env2 _ hdisc, by rw [main_empty env2 _ hdisc]; rfl⟩

/-- Witness for `successful_run_idempotent`: after sweeping `fsPlain` — a
run whose one write is the multi-segment `sub/dir/file.txt`, creating only
directories named `sub` and `dir` that the glob cannot match — a second run
finds nothing. -/
theorem successful_run_idempotent_witness :
    discover (main envOk fsPlain).fs = [] ∧
    main envOk (main envOk fsPlain).fs =
      ⟨(main envOk fsPlain).fs, [noZipMsg], [], .ret 1⟩ ∧
    processExit (main envOk (main envOk fsPlain).fs) = 1 :=
  successful_run_idempotent envOk envOk fsPlain (by decide) (by decide)

/-- C4 counterexample: the archive member stored as `../evil.txt` is not
written at its stored path — sanitization strips the parent-directory
segment and the file lands at `evil.txt` inside the working directory. -/
theorem traversal_counterexample :
    (main envOk fsTraversal).outcome = .ret 0 ∧
    (main envOk fsTraversal).writes = [["evil.txt"]] ∧
    fileExists (main envOk fsTraversal).fs ["evil.txt"] = true ∧
    fileExists (main envOk fsTraversal).fs ["..", "evil.txt"] = false ∧
    sanitizeParts "../evil.txt" = ["evil.txt"] :=
  ⟨by decide, by decide, by decide, by decide, by decide⟩

/-- C4 amended: every path the run writes is the sanitized form of some
stored member name, and all of its segments are ordinary (never empty, `.`
or `..`), so extraction cannot write outside the working directory via
parent-directory segments. -/
theorem extraction_writes_sanitized_paths (env : Env) (fs : FS) (w : FsPath)
    (hw : w ∈ (main env fs).writes) :
    (∃ name, w = sanitizeParts name) ∧ ordinarySegments w := by
  by_cases hd : discover fs = []
  · rw [main_empty env fs hd] at hw
    exact absurd hw (List.not_mem_nil w)
  · rw [main_writes_eq env fs hd] at hw
    rcases processZips_writes_sanitized env (discover fs) fs w hw with ⟨name, rfl⟩
    exact ⟨⟨name, rfl⟩, fun s hs => mem_sanitizeParts name s hs⟩

/-- Witness for `extraction_writes_sanitized_paths` at the write produced by
the `../evil.txt` member. -/
theorem extraction_writes_sanitized_paths_witness :
    (∃ name, ["evil.txt"] = sanitizeParts name) ∧ ordinarySegments ["evil.txt"] :=
  extraction_writes_sanitized_paths envOk fsTraversal ["evil.txt"] (by decide)

end ZipSweep

namespace ZipSweep

/-- Witness for `discover_matches_zip_suffix` at a concrete directory and
name. -/
theorem discover_matches_zip_suffix_witness :
    ("a.zip" ∈ discover fsPlain ↔
      "a.zip" ∈ topLevelNames fsPlain ∧ matchesZipGlob "a.zip" = true) ∧
    matchesZipGlob "archive.zip" = true ∧ matchesZipGlob "archive.ZIP" = false ∧
    matchesZipGlob ".hidden.zip" = true :=
  discover_matches_zip_suffix fsPlain "a.zip"

end ZipSweep

namespace ZipSweep

/-- Boundary of `createsNoZipName`: a member stored as `x.zip/inner.txt`
would make extraction create a top-level directory `x.zip` that a later
`glob("*.zip")` matches, so its write is rejected; an ordinary nested write
is accepted; a top-level `inner.zip` file is rejected. -/
theorem createsNoZipName_boundary :
    createsNoZipName ["x.zip", "inner.txt"] = false ∧
    createsNoZipName ["sub", "dir", "file.txt"] = true ∧
    createsNoZipName ["inner.zip"] = false := by
  decide

end ZipSweep
